import Mathlib

/-!
# Verification of the GPJax compositional core

A shallow embedding of `gpjax/utils.py`, `gpjax/gps.py` and
`gpjax/parameters/base.py`, together with theorems settling the spec's
claims about them.

Python dictionaries are modelled as insertion-ordered association lists
(`PDict`): this captures both the key-value content and the iteration
order, which the spec's sorting claims are about.
-/

namespace GPJax

/-- A Python dictionary: an insertion-ordered list of key-value pairs.
Python guarantees unique keys; where a proof needs that fact it appears
as a `Nodup` hypothesis on `dkeys`. -/
abbrev PDict (V : Type) := List (String × V)

/-- The list of keys of a dictionary, in iteration order
(`d.keys()` in Python). -/
def dkeys {V : Type} (d : PDict V) : List String :=
  d.map Prod.fst

/-- Python `d[k]` / `k in d`: the value at the first entry with key `k`. -/
def dlookup {V : Type} : PDict V → String → Option V
  | [], _ => none
  | p :: t, k => if p.1 = k then some p.2 else dlookup t k

/-- Python `d[k] = v` on a dictionary: if the key is present its value is
updated in place (iteration position kept), otherwise the pair is appended
at the end. -/
def dinsert {V : Type} (d : PDict V) (k : String) (v : V) : PDict V :=
  if k ∈ dkeys d then d.map (fun p => if p.1 = k then (k, v) else p)
  else d ++ [(k, v)]

/-- `concat_dictionaries(a, b)` from `gpjax/utils.py`: `{**a, **b}` —
a fresh dictionary holding a's items then b's items, b winning on
duplicate keys. -/
def concat_dictionaries {V : Type} (a b : PDict V) : PDict V :=
  b.foldl (fun acc p => dinsert acc p.1 p.2) a

/-- `merge_dictionaries(base_dict, in_dict)` from `gpjax/utils.py`: for
every key of `base_dict`, overwrite its value with `in_dict`'s value when
that key exists in `in_dict`.  (The Python function performs the
overwrites by in-place assignment on `base_dict` and returns it; the
post-call state of the argument is modelled separately below.) -/
def merge_dictionaries {V : Type} (base_dict in_dict : PDict V) : PDict V :=
  base_dict.map (fun p =>
    match dlookup in_dict p.1 with
    | some v => (p.1, v)
    | none => p)

/-- `sort_dictionary(base_dict)` from `gpjax/utils.py`:
`dict(sorted(base_dict.items()))` — a fresh dictionary with the items in
ascending key order (Python's `sorted` is stable). -/
def sort_dictionary {V : Type} (base_dict : PDict V) : PDict V :=
  base_dict.insertionSort (fun p q => p.1 ≤ q.1)

/-- `add_parameter(base_dict, key_value)` from `gpjax/utils.py`:
deep-copies `base_dict`, adds the pair, and returns the sorted copy. -/
def add_parameter {V : Type} (base_dict : PDict V) (key_value : String × V) :
    PDict V :=
  sort_dictionary (dinsert base_dict key_value.1 key_value.2)

/-- Modelled from the spec: `as_constant` is imported by
`tests/test_utilities.py` from `gpjax.utils` but its definition is not
under `src/`.  Spec §4.2: "partitions `d` into `(free, held_constant)`
where `held_constant` contains exactly the listed keys (in their stored
values) and `free` contains the remainder". -/
def as_constant {V : Type} (base : PDict V) (keys : List String) :
    PDict V × PDict V :=
  (base.filter (fun p => p.1 ∉ keys), base.filter (fun p => p.1 ∈ keys))

/-! ## Post-call argument states

`gpjax/utils.py` is a mix of copy-on-write helpers and one in-place
helper.  Each `…after…` definition below records, from the source, the
contents of an argument dictionary after the call returns. -/

/-- State of `a` after `concat_dictionaries(a, b)`: `{**a, **b}` builds a
new dictionary and never writes to `a`. -/
def concat_dictionaries_afterFirst {V : Type} (a b : PDict V) : PDict V := a

/-- State of `b` after `concat_dictionaries(a, b)`: never written. -/
def concat_dictionaries_afterSecond {V : Type} (a b : PDict V) : PDict V := b

/-- State of `base_dict` after `merge_dictionaries(base_dict, in_dict)`:
the loop assigns `base_dict[k] = in_dict[k]` for every overlapping key,
so the argument ends up holding the merged result (which the function
also returns — result and argument are the same object). -/
def merge_dictionaries_afterBase {V : Type} (base_dict in_dict : PDict V) :
    PDict V :=
  merge_dictionaries base_dict in_dict

/-- State of `in_dict` after `merge_dictionaries`: only read, never
written. -/
def merge_dictionaries_afterOverride {V : Type} (base_dict in_dict : PDict V) :
    PDict V := in_dict

/-- State of `base_dict` after `sort_dictionary(base_dict)`:
`sorted(...)` and the `dict` constructor build fresh objects. -/
def sort_dictionary_after {V : Type} (base_dict : PDict V) : PDict V :=
  base_dict

/-- State of `base_dict` after `add_parameter(base_dict, key_value)`: the
function works on `deepcopy(base_dict)`, so the argument is untouched. -/
def add_parameter_after {V : Type} (base_dict : PDict V)
    (key_value : String × V) : PDict V := base_dict

/-! ## Model algebra (`gpjax/gps.py`)

Kernels, mean functions and likelihoods are external collaborators; the
only structure `gps.py` inspects is whether the kernel is a
`SpectralKernel` and which likelihood class the operand belongs to, so
they are embedded as tagged variants. -/

/-- A kernel: either an ordinary kernel or a `SpectralKernel` (the only
distinction `Prior.__mul__` inspects, via `isinstance`). -/
inductive Kernel : Type
  | plain (name : String)
  | spectral (name : String)
deriving DecidableEq, Repr

/-- The `isinstance(self.kernel, SpectralKernel)` test. -/
def Kernel.isSpectral : Kernel → Bool
  | .plain _ => false
  | .spectral _ => true

/-- A mean function; `Zero()` is the default. -/
inductive MeanFunction : Type
  | zero
  | custom (name : String)
deriving DecidableEq, Repr

/-- The closed likelihood variant set: `Gaussian` is the conjugate
likelihood; `NonConjugateLikelihoods` is the closed family of
non-conjugate link likelihoods (Bernoulli-type). -/
inductive Likelihood : Type
  | gaussian
  | bernoulli
  | poisson
deriving DecidableEq, Repr

/-- Membership in the `NonConjugateLikelihoods` tuple: every variant
except `Gaussian`. -/
def Likelihood.isNonConjugate : Likelihood → Bool
  | .gaussian => false
  | _ => true

/-- The `Prior` dataclass: `{kernel, mean_function (default Zero()),
name (default "Prior")}`. -/
structure Prior : Type where
  kernel : Kernel
  mean_function : MeanFunction := .zero
  name : String := "Prior"
deriving DecidableEq, Repr

/-- The tagged union of the three posterior dataclasses, each holding
the prior, the likelihood, and its `name` default. -/
inductive Posterior : Type
  | conjugate (prior : Prior) (likelihood : Likelihood) (name : String)
  | nonConjugate (prior : Prior) (likelihood : Likelihood) (name : String)
  | spectral (prior : Prior) (likelihood : Likelihood) (name : String)
deriving DecidableEq, Repr

/-- The `prior` field of whichever posterior variant was built. -/
def Posterior.priorOf : Posterior → Prior
  | .conjugate p _ _ => p
  | .nonConjugate p _ _ => p
  | .spectral p _ _ => p

/-- The `likelihood` field of whichever posterior variant was built. -/
def Posterior.likelihoodOf : Posterior → Likelihood
  | .conjugate _ l _ => l
  | .nonConjugate _ l _ => l
  | .spectral _ l _ => l

/-- `Prior.__mul__` from `gpjax/gps.py`: dispatch on the likelihood
class.  A `Gaussian` operand yields a `SpectralPosterior` when the
kernel is spectral and a `ConjugatePosterior` otherwise; a non-conjugate
operand yields a `NonConjugatePosterior`. -/
def Prior.mul (self : Prior) (other : Likelihood) : Posterior :=
  match other with
  | .gaussian =>
      if self.kernel.isSpectral then
        .spectral self other "SpectralPosterior"
      else
        .conjugate self other "ConjugatePosterior"
  | _ => .nonConjugate self other "Non-conjugatePosterior"

/-! ## Parameter values and the initialise dispatch
(`gpjax/parameters/base.py`)

The kernel / mean-function / likelihood initialisers live in
`gpjax.kernels`, `gpjax.mean_functions` and `gpjax.likelihoods`, which
are not under `src/`; they are abstracted as arbitrary given parameter
dictionaries (`kInit`, `mInit`, `lInit`).  The dispatch logic below is
the `src/gpjax/parameters/base.py` code itself. -/

/-- A numerical parameter value: a scalar or an array (rationals stand
in for the float entries). -/
inductive PValue : Type
  | scalar (x : Rat)
  | matrix (rows : List (List Rat))
deriving DecidableEq, Repr

/-- `jnp.zeros(shape=(n, 1))`: an n-by-1 all-zeros array. -/
def jnpZeros (n : Nat) : PValue :=
  .matrix (List.replicate n [0])

/-- The dispatch failure raised by `multipledispatch` when no registered
`initialise` signature matches the call. -/
inductive InitError : Type
  | NoMatchingInitializer
deriving DecidableEq, Repr

/-- `_initialise_hyperparams(kernel, meanf)`:
`concat_dictionaries(initialise(kernel), initialise(meanf))`. -/
def initialiseHyperparams (kInit mInit : PDict PValue) : PDict PValue :=
  concat_dictionaries kInit mInit

/-- The seed-less call `initialise(gp)`: registered only for
`(ConjugatePosterior, SpectralPosterior)`; on a `NonConjugatePosterior`
the dispatch fails. -/
def initialiseModel (kInit mInit lInit : PDict PValue) (gp : Posterior) :
    Except InitError (PDict PValue) :=
  match gp with
  | .nonConjugate _ _ _ => .error .NoMatchingInitializer
  | _ =>
      .ok (sort_dictionary
        (concat_dictionaries (initialiseHyperparams kInit mInit) lInit))

/-- The call `initialise(gp, n_data)`.  For conjugate/spectral models the
`((ConjugatePosterior, SpectralPosterior), object)` signature matches any
second argument (`none` models Python's `None`) and returns
`sort_dictionary(initialise(gp))`; for non-conjugate models only the
`(NonConjugatePosterior, int)` signature exists, which additionally
merges in the zero-initialised latent block under the key `"latent"`. -/
def initialiseModelN (kInit mInit lInit : PDict PValue) (gp : Posterior)
    (nData : Option Nat) : Except InitError (PDict PValue) :=
  match gp, nData with
  | .nonConjugate _ _ _, some n =>
      .ok (sort_dictionary
        (concat_dictionaries
          (concat_dictionaries (initialiseHyperparams kInit mInit) lInit)
          [("latent", jnpZeros n)]))
  | .nonConjugate _ _ _, none => .error .NoMatchingInitializer
  | _, _ => (initialiseModel kInit mInit lInit gp).map sort_dictionary

/-- `complete(params, gp, n_data=None)` from `gpjax/parameters/base.py`:
`sort_dictionary(merge_dictionaries(initialise(gp, n_data), params))`,
propagating the dispatch failure when the inner `initialise` has no
matching signature. -/
def complete (params kInit mInit lInit : PDict PValue) (gp : Posterior)
    (nData : Option Nat) : Except InitError (PDict PValue) :=
  (initialiseModelN kInit mInit lInit gp nData).map
    (fun full => sort_dictionary (merge_dictionaries full params))

/-! ## Basic dictionary lemmas -/

@[simp] theorem dkeys_nil {V : Type} : dkeys ([] : PDict V) = [] := rfl

@[simp] theorem dkeys_cons {V : Type} (p : String × V) (t : PDict V) :
    dkeys (p :: t) = p.1 :: dkeys t := rfl

@[simp] theorem dlookup_nil {V : Type} (k : String) :
    dlookup ([] : PDict V) k = none := rfl

theorem dlookup_cons {V : Type} (p : String × V) (t : PDict V) (k : String) :
    dlookup (p :: t) k = if p.1 = k then some p.2 else dlookup t k := rfl

theorem dlookup_isSome_iff {V : Type} (d : PDict V) (k : String) :
    (dlookup d k).isSome = true ↔ k ∈ dkeys d := by
  induction d with
  | nil => simp
  | cons p t ih =>
    by_cases h : p.1 = k
    · subst h
      simp [dlookup_cons]
    · simp only [dlookup_cons, if_neg h, dkeys_cons, List.mem_cons, ih]
      constructor
      · exact Or.inr
      · rintro (rfl | hm)
        · exact absurd rfl h
        · exact hm

theorem dlookup_eq_none_of_not_mem {V : Type} {d : PDict V} {k : String}
    (h : k ∉ dkeys d) : dlookup d k = none := by
  cases hd : dlookup d k with
  | none => rfl
  | some v => exact absurd ((dlookup_isSome_iff d k).mp (by simp [hd])) h

/-- C2 helper: keys of a merge are exactly the base's keys, in order. -/
theorem dkeys_merge {V : Type} (base override : PDict V) :
    dkeys (merge_dictionaries base override) = dkeys base := by
  unfold dkeys merge_dictionaries
  rw [List.map_map]
  refine List.map_congr_left ?_
  intro p _
  cases h : dlookup override p.1 <;> simp [h, Function.comp]

instance {V : Type} : IsTotal (String × V) (fun p q => p.1 ≤ q.1) :=
  ⟨fun a b => le_total a.1 b.1⟩

instance {V : Type} : IsTrans (String × V) (fun p q => p.1 ≤ q.1) :=
  ⟨fun _ _ _ h h' => le_trans h h'⟩

theorem sort_dictionary_perm {V : Type} (d : PDict V) :
    List.Perm (sort_dictionary d) d :=
  List.perm_insertionSort _ d

theorem sort_dictionary_sorted {V : Type} (d : PDict V) :
    List.Sorted (fun p q : String × V => p.1 ≤ q.1) (sort_dictionary d) :=
  List.sorted_insertionSort _ d

/-- Sorting an already sorted dictionary changes nothing (Python's
`sorted` is deterministic and stable). -/
theorem sort_dictionary_idem {V : Type} (d : PDict V) :
    sort_dictionary (sort_dictionary d) = sort_dictionary d :=
  List.Sorted.insertionSort_eq (sort_dictionary_sorted d)

theorem mem_dkeys_sort {V : Type} (d : PDict V) (k : String) :
    k ∈ dkeys (sort_dictionary d) ↔ k ∈ dkeys d :=
  ((sort_dictionary_perm d).map Prod.fst).mem_iff

theorem dlookup_eq_some_iff_mem {V : Type} {d : PDict V}
    (h : (dkeys d).Nodup) (k : String) (v : V) :
    dlookup d k = some v ↔ (k, v) ∈ d := by
  induction d with
  | nil => simp
  | cons p t ih =>
    rw [dkeys_cons, List.nodup_cons] at h
    by_cases hk : p.1 = k
    · subst hk
      rw [dlookup_cons, if_pos rfl]
      constructor
      · rintro ⟨rfl⟩
        simp
      · intro hm
        rcases List.mem_cons.mp hm with heq | hmt
        · rw [← heq]
        · exact absurd (List.mem_map_of_mem Prod.fst hmt) h.1
    · rw [dlookup_cons, if_neg hk, ih h.2, List.mem_cons]
      constructor
      · exact Or.inr
      · rintro (heq | hmt)
        · exact absurd (congrArg Prod.fst heq).symm hk
        · exact hmt

/-- Looking up a key is invariant under permutation when keys are
unique. -/
theorem dlookup_of_perm {V : Type} {d₁ d₂ : PDict V} (hp : List.Perm d₁ d₂)
    (h : (dkeys d₁).Nodup) (k : String) :
    dlookup d₁ k = dlookup d₂ k := by
  have h₂ : (dkeys d₂).Nodup := ((hp.map Prod.fst).nodup_iff).mp h
  cases hv : dlookup d₁ k with
  | some v =>
    exact ((dlookup_eq_some_iff_mem h₂ k v).mpr
      (hp.mem_iff.mp ((dlookup_eq_some_iff_mem h k v).mp hv))).symm
  | none =>
    have hm : k ∉ dkeys d₁ := by
      rw [← dlookup_isSome_iff]
      simp [hv]
    exact (dlookup_eq_none_of_not_mem
      (fun hmem => hm ((hp.map Prod.fst).mem_iff.mpr hmem))).symm

theorem dkeys_dinsert_of_mem {V : Type} {d : PDict V} {k : String}
    (h : k ∈ dkeys d) (v : V) : dkeys (dinsert d k v) = dkeys d := by
  unfold dinsert
  rw [if_pos h]
  unfold dkeys
  rw [List.map_map]
  refine List.map_congr_left ?_
  intro p _
  by_cases hp : p.1 = k <;> simp [hp, Function.comp]

theorem dkeys_dinsert_of_not_mem {V : Type} {d : PDict V} {k : String}
    (h : k ∉ dkeys d) (v : V) : dkeys (dinsert d k v) = dkeys d ++ [k] := by
  unfold dinsert
  rw [if_neg h]
  simp [dkeys]

theorem mem_dkeys_dinsert {V : Type} (d : PDict V) (k : String) (v : V)
    (x : String) : x ∈ dkeys (dinsert d k v) ↔ x = k ∨ x ∈ dkeys d := by
  by_cases h : k ∈ dkeys d
  · rw [dkeys_dinsert_of_mem h]
    constructor
    · exact Or.inr
    · rintro (rfl | hx)
      · exact h
      · exact hx
  · rw [dkeys_dinsert_of_not_mem h]
    simp [or_comm]

theorem nodup_dkeys_dinsert {V : Type} {d : PDict V} (h : (dkeys d).Nodup)
    (k : String) (v : V) : (dkeys (dinsert d k v)).Nodup := by
  by_cases hm : k ∈ dkeys d
  · rw [dkeys_dinsert_of_mem hm]
    exact h
  · rw [dkeys_dinsert_of_not_mem hm]
    simp [List.nodup_append, h, hm]

theorem mem_dkeys_concat {V : Type} (a b : PDict V) (x : String) :
    x ∈ dkeys (concat_dictionaries a b) ↔ x ∈ dkeys a ∨ x ∈ dkeys b := by
  induction b generalizing a with
  | nil => simp [concat_dictionaries]
  | cons p t ih =>
    show x ∈ dkeys (concat_dictionaries (dinsert a p.1 p.2) t) ↔ _
    rw [ih, mem_dkeys_dinsert]
    simp only [dkeys_cons, List.mem_cons]
    tauto

theorem nodup_dkeys_concat {V : Type} {a : PDict V} (b : PDict V)
    (ha : (dkeys a).Nodup) : (dkeys (concat_dictionaries a b)).Nodup := by
  induction b generalizing a with
  | nil => exact ha
  | cons p t ih => exact ih (nodup_dkeys_dinsert ha p.1 p.2)

/-- C2/C3 helper: a merged dictionary looks up to the base's value
overridden by the override's value when the latter exists. -/
theorem dlookup_merge {V : Type} (base override : PDict V) (k : String) :
    dlookup (merge_dictionaries base override) k =
      (dlookup base k).map (fun v => (dlookup override k).getD v) := by
  induction base with
  | nil => simp [merge_dictionaries]
  | cons p t ih =>
    by_cases hp : p.1 = k
    · subst hp
      cases ho : dlookup override p.1 <;>
        simp [merge_dictionaries, dlookup_cons, ho]
    · cases ho : dlookup override p.1 <;>
        simpa [merge_dictionaries, dlookup_cons, hp, ho] using ih

/-- Every entry of `dinsert d k z` whose key is `k` carries the value
`z`. -/
theorem val_eq_of_mem_dinsert {V : Type} {d : PDict V} {k : String} {z v : V}
    (h : (k, v) ∈ dinsert d k z) : v = z := by
  unfold dinsert at h
  by_cases hm : k ∈ dkeys d
  · rw [if_pos hm] at h
    obtain ⟨p, _, hp⟩ := List.mem_map.mp h
    by_cases hpk : p.1 = k
    · rw [if_pos hpk] at hp
      exact (Prod.mk.injEq _ _ _ _ ▸ hp).2.symm
    · rw [if_neg hpk] at hp
      exact absurd (congrArg Prod.fst hp) hpk
  · rw [if_neg hm] at h
    rcases List.mem_append.mp h with hd | hs
    · exact absurd (List.mem_map_of_mem Prod.fst hd) hm
    · rw [List.mem_singleton] at hs
      exact (Prod.mk.injEq _ _ _ _ ▸ hs).2

/-- If a key is present and all its entries carry the value `z`, lookup
returns `z`. -/
theorem dlookup_eq_some_of_all {V : Type} {d : PDict V} {k : String} {z : V}
    (hmem : k ∈ dkeys d) (hall : ∀ v, (k, v) ∈ d → v = z) :
    dlookup d k = some z := by
  induction d with
  | nil => simp at hmem
  | cons p t ih =>
    by_cases hp : p.1 = k
    · subst hp
      rw [dlookup_cons, if_pos rfl, hall p.2 (by simp)]
    · rw [dlookup_cons, if_neg hp]
      refine ih ?_ ?_
      · rcases List.mem_cons.mp hmem with heq | hmt
        · exact absurd heq.symm hp
        · exact hmt
      · intro v hv
        exact hall v (List.mem_cons_of_mem _ hv)

/-! ## Claim theorems: model algebra -/

/-- C1: composing a `Prior` with a likelihood of the closed variant set
returns a `SpectralPosterior` when the likelihood is Gaussian and the
kernel is spectral, a `ConjugatePosterior` when the likelihood is
Gaussian and the kernel is not spectral, and a `NonConjugatePosterior`
for every non-conjugate likelihood; the posterior always holds the given
prior and likelihood unchanged. -/
theorem prior_mul_spec (p : Prior) (l : Likelihood) :
    (l = .gaussian → p.kernel.isSpectral = true →
      Prior.mul p l = .spectral p l "SpectralPosterior") ∧
    (l = .gaussian → p.kernel.isSpectral = false →
      Prior.mul p l = .conjugate p l "ConjugatePosterior") ∧
    (l.isNonConjugate = true →
      Prior.mul p l = .nonConjugate p l "Non-conjugatePosterior") ∧
    (Prior.mul p l).priorOf = p ∧ (Prior.mul p l).likelihoodOf = l := by
  cases l <;> cases hk : p.kernel.isSpectral <;>
    simp [Prior.mul, Likelihood.isNonConjugate, Posterior.priorOf,
      Posterior.likelihoodOf, hk]

/-- C1 witness: the three concrete compositions of the spec's totality
property. -/
theorem prior_mul_spec_witness :
    ((Kernel.spectral "sp").isSpectral = true ∧
      Prior.mul ⟨.spectral "sp", .zero, "Prior"⟩ .gaussian =
        .spectral ⟨.spectral "sp", .zero, "Prior"⟩ .gaussian
          "SpectralPosterior") ∧
    ((Kernel.plain "rbf").isSpectral = false ∧
      Prior.mul ⟨.plain "rbf", .zero, "Prior"⟩ .gaussian =
        .conjugate ⟨.plain "rbf", .zero, "Prior"⟩ .gaussian
          "ConjugatePosterior") ∧
    (Likelihood.bernoulli.isNonConjugate = true ∧
      Prior.mul ⟨.plain "rbf", .zero, "Prior"⟩ .bernoulli =
        .nonConjugate ⟨.plain "rbf", .zero, "Prior"⟩ .bernoulli
          "Non-conjugatePosterior") := by
  refine ⟨⟨rfl, ?_⟩, ⟨rfl, ?_⟩, ⟨rfl, ?_⟩⟩
  · exact (prior_mul_spec ⟨.spectral "sp", .zero, "Prior"⟩ .gaussian).1 rfl rfl
  · exact (prior_mul_spec ⟨.plain "rbf", .zero, "Prior"⟩ .gaussian).2.1 rfl rfl
  · exact (prior_mul_spec ⟨.plain "rbf", .zero, "Prior"⟩ .bernoulli).2.2.1 rfl

/-! ## Claim theorems: the initialise dispatch -/

/-- C5: non-conjugate `initialise(gp, k)` yields a store whose `"latent"`
entry is the k-by-1 all-zeros array, whose key set is exactly the latent
key plus the kernel / mean-function / likelihood keys, and whose
iteration order is ascending alphabetical. -/
theorem initialise_nonconjugate_spec (kInit mInit lInit : PDict PValue)
    (prior : Prior) (lik : Likelihood) (nm : String) (k : Nat)
    (r : PDict PValue)
    (h : initialiseModelN kInit mInit lInit (.nonConjugate prior lik nm)
      (some k) = .ok r) :
    dlookup r "latent" = some (jnpZeros k) ∧
    (∀ key, key ∈ dkeys r ↔
      (key = "latent" ∨ key ∈ dkeys kInit ∨ key ∈ dkeys mInit ∨
        key ∈ dkeys lInit)) ∧
    List.Sorted (fun p q : String × PValue => p.1 ≤ q.1) r := by
  have hr : r = sort_dictionary
      (concat_dictionaries
        (concat_dictionaries (initialiseHyperparams kInit mInit) lInit)
        [("latent", jnpZeros k)]) := by
    simpa [initialiseModelN] using h.symm
  subst hr
  set L0 : PDict PValue :=
    concat_dictionaries (initialiseHyperparams kInit mInit) lInit with hL0
  have hins : concat_dictionaries L0 [("latent", jnpZeros k)] =
      dinsert L0 "latent" (jnpZeros k) := rfl
  refine ⟨?_, ?_, sort_dictionary_sorted _⟩
  · have hperm := sort_dictionary_perm
      (concat_dictionaries L0 [("latent", jnpZeros k)])
    refine dlookup_eq_some_of_all ?_ ?_
    · rw [mem_dkeys_sort, hins, mem_dkeys_dinsert]
      exact Or.inl rfl
    · intro v hv
      rw [hins] at hperm
      exact val_eq_of_mem_dinsert (hperm.mem_iff.mp hv)
  · intro key
    rw [mem_dkeys_sort, mem_dkeys_concat, mem_dkeys_concat,
      initialiseHyperparams, mem_dkeys_concat]
    simp only [dkeys_cons, dkeys_nil, List.mem_cons, List.not_mem_nil,
      or_false]
    tauto

/-- C5 witness: a concrete non-conjugate initialisation with
`n_data = 2`. -/
theorem initialise_nonconjugate_spec_witness :
    initialiseModelN [] [] []
      (.nonConjugate ⟨.plain "rbf", .zero, "Prior"⟩ .bernoulli
        "Non-conjugatePosterior") (some 2) =
      .ok [("latent", jnpZeros 2)] ∧
    dlookup [("latent", jnpZeros 2)] "latent" = some (jnpZeros 2) := by
  refine ⟨congrArg Except.ok (by decide), ?_⟩
  exact (initialise_nonconjugate_spec [] [] []
    ⟨.plain "rbf", .zero, "Prior"⟩ .bernoulli "Non-conjugatePosterior" 2
    [("latent", jnpZeros 2)] (congrArg Except.ok (by decide))).1

/-- C6: calling the non-conjugate initialiser without `n_data` — via
the seed-less one-argument form, via the two-argument form with `None`,
or via `complete` with `n_data` omitted — is a dispatch failure and
yields no parameter store. -/
theorem initialise_nonconjugate_no_ndata_fails
    (params kInit mInit lInit : PDict PValue) (prior : Prior)
    (lik : Likelihood) (nm : String) :
    initialiseModel kInit mInit lInit (.nonConjugate prior lik nm) =
      .error .NoMatchingInitializer ∧
    initialiseModelN kInit mInit lInit (.nonConjugate prior lik nm) none =
      .error .NoMatchingInitializer ∧
    complete params kInit mInit lInit (.nonConjugate prior lik nm) none =
      .error .NoMatchingInitializer :=
  ⟨rfl, rfl, rfl⟩

/-- C7: for conjugate and spectral models, `initialise(gp, n_data)`
returns exactly the same dictionary as the seed-less `initialise(gp)`
for every accepted `n_data` (including `None`). -/
theorem initialise_conjugate_ndata_noop (kInit mInit lInit : PDict PValue)
    (prior : Prior) (lik : Likelihood) (nm : String) (nData : Option Nat) :
    initialiseModelN kInit mInit lInit (.conjugate prior lik nm) nData =
      initialiseModel kInit mInit lInit (.conjugate prior lik nm) ∧
    initialiseModelN kInit mInit lInit (.spectral prior lik nm) nData =
      initialiseModel kInit mInit lInit (.spectral prior lik nm) := by
  constructor <;>
    exact congrArg Except.ok (sort_dictionary_idem _)

/-- C3: `complete(partial_params, gp, n_data)` succeeds whenever the
inner `initialise` dispatch does, its key set is exactly the key set of
the full initial store, every full-set key also present in
`partial_params` takes the override value, and every `partial_params`
key absent from the full set is silently dropped. -/
theorem complete_spec (params kInit mInit lInit : PDict PValue)
    (gp : Posterior) (nData : Option Nat) (full : PDict PValue)
    (h : initialiseModelN kInit mInit lInit gp nData = .ok full)
    (hnd : (dkeys full).Nodup) :
    complete params kInit mInit lInit gp nData =
      .ok (sort_dictionary (merge_dictionaries full params)) ∧
    (∀ k, k ∈ dkeys (sort_dictionary (merge_dictionaries full params)) ↔
      k ∈ dkeys full) ∧
    (∀ k, k ∈ dkeys full → k ∈ dkeys params →
      dlookup (sort_dictionary (merge_dictionaries full params)) k =
        dlookup params k) ∧
    (∀ k, k ∈ dkeys params → k ∉ dkeys full →
      k ∉ dkeys (sort_dictionary (merge_dictionaries full params))) := by
  have hmk : dkeys (merge_dictionaries full params) = dkeys full :=
    dkeys_merge full params
  have hmnd : (dkeys (merge_dictionaries full params)).Nodup := hmk ▸ hnd
  have hlp : ∀ k,
      dlookup (sort_dictionary (merge_dictionaries full params)) k =
        dlookup (merge_dictionaries full params) k := by
    intro k
    exact dlookup_of_perm (sort_dictionary_perm _)
      ((((sort_dictionary_perm _).map Prod.fst).nodup_iff).mpr hmnd) k
  refine ⟨by unfold complete; rw [h]; rfl, ?_, ?_, ?_⟩
  · intro k
    rw [mem_dkeys_sort, hmk]
  · intro k hf hp
    obtain ⟨w, hw⟩ :=
      Option.isSome_iff_exists.mp ((dlookup_isSome_iff full k).mpr hf)
    obtain ⟨v, hv⟩ :=
      Option.isSome_iff_exists.mp ((dlookup_isSome_iff params k).mpr hp)
    rw [hlp k, dlookup_merge, hw, hv]
    simp
  · intro k _ hf
    rw [mem_dkeys_sort, hmk]
    exact hf

/-- C3 witness: completing a conjugate model's one-key store with an
override that hits the key and adds an unknown key. -/
theorem complete_spec_witness :
    (initialiseModelN [("lengthscale", PValue.scalar 1)] [] []
        (.conjugate ⟨.plain "rbf", .zero, "Prior"⟩ .gaussian
          "ConjugatePosterior") none =
      .ok [("lengthscale", PValue.scalar 1)] ∧
      (dkeys [("lengthscale", PValue.scalar 1)]).Nodup) ∧
    dlookup (sort_dictionary (merge_dictionaries
        [("lengthscale", PValue.scalar 1)]
        [("lengthscale", PValue.scalar 5), ("nonsense", PValue.scalar 9)]))
      "lengthscale" = some (PValue.scalar 5) ∧
    "nonsense" ∉ dkeys (sort_dictionary (merge_dictionaries
        [("lengthscale", PValue.scalar 1)]
        [("lengthscale", PValue.scalar 5), ("nonsense", PValue.scalar 9)])) := by
  refine ⟨⟨congrArg Except.ok (by decide), by decide⟩, ?_, ?_⟩
  · have hc := (complete_spec
      [("lengthscale", PValue.scalar 5), ("nonsense", PValue.scalar 9)]
      [("lengthscale", PValue.scalar 1)] [] []
      (.conjugate ⟨.plain "rbf", .zero, "Prior"⟩ .gaussian
        "ConjugatePosterior") none [("lengthscale", PValue.scalar 1)]
      (congrArg Except.ok (by decide)) (by decide)).2.2.1 "lengthscale"
      (by decide) (by decide)
    rw [hc]
    decide
  · exact (complete_spec
      [("lengthscale", PValue.scalar 5), ("nonsense", PValue.scalar 9)]
      [("lengthscale", PValue.scalar 1)] [] []
      (.conjugate ⟨.plain "rbf", .zero, "Prior"⟩ .gaussian
        "ConjugatePosterior") none [("lengthscale", PValue.scalar 1)]
      (congrArg Except.ok (by decide)) (by decide)).2.2.2 "nonsense"
      (by decide) (by decide)

/-! ## Claim theorems: the Parameter Store helpers -/

theorem dlookup_filter_key {V : Type} (d : PDict V) (pred : String → Bool)
    (k : String) :
    dlookup (d.filter (fun p => pred p.1)) k =
      if pred k = true then dlookup d k else none := by
  induction d with
  | nil => simp
  | cons p t ih =>
    by_cases hp : p.1 = k
    · subst hp
      cases hq : pred p.1 <;> simp [List.filter_cons, hq, dlookup_cons, ih]
    · cases hq : pred p.1 <;>
        simp [List.filter_cons, hq, dlookup_cons, hp, ih]

theorem mem_dkeys_filter_key {V : Type} (d : PDict V) (pred : String → Bool)
    (k : String) :
    k ∈ dkeys (d.filter (fun p => pred p.1)) ↔
      pred k = true ∧ k ∈ dkeys d := by
  rw [← dlookup_isSome_iff, dlookup_filter_key, ← dlookup_isSome_iff]
  by_cases hq : pred k = true <;> simp [hq]

/-- C10: `as_constant(base, keys)` partitions `base` into
`(free, held_constant)`: `held_constant` holds exactly the listed keys
with their stored values, `free` holds exactly the remaining pairs, the
two key sets are disjoint and their union is `base`'s key set. -/
theorem as_constant_spec {V : Type} (base : PDict V) (keys : List String)
    (h : ∀ k ∈ keys, k ∈ dkeys base) :
    (∀ k, k ∈ dkeys (as_constant base keys).2 ↔ k ∈ keys) ∧
    (∀ k ∈ keys, dlookup (as_constant base keys).2 k = dlookup base k) ∧
    (∀ k, k ∈ dkeys (as_constant base keys).1 ↔
      (k ∈ dkeys base ∧ k ∉ keys)) ∧
    (∀ k ∉ keys, dlookup (as_constant base keys).1 k = dlookup base k) ∧
    (∀ k, (k ∈ dkeys (as_constant base keys).1 ∨
      k ∈ dkeys (as_constant base keys).2) ↔ k ∈ dkeys base) ∧
    (∀ k, ¬(k ∈ dkeys (as_constant base keys).1 ∧
      k ∈ dkeys (as_constant base keys).2)) := by
  have hheldm : ∀ k, k ∈ dkeys (as_constant base keys).2 ↔
      (k ∈ keys ∧ k ∈ dkeys base) := by
    intro k
    have hm := mem_dkeys_filter_key base (fun s => decide (s ∈ keys)) k
    rw [decide_eq_true_eq] at hm
    exact hm
  have hfreem : ∀ k, k ∈ dkeys (as_constant base keys).1 ↔
      (k ∉ keys ∧ k ∈ dkeys base) := by
    intro k
    have hm := mem_dkeys_filter_key base (fun s => decide (s ∉ keys)) k
    rw [decide_eq_true_eq] at hm
    exact hm
  refine ⟨?_, ?_, ?_, ?_, ?_, ?_⟩
  · intro k
    rw [hheldm k]
    exact ⟨And.left, fun hk => ⟨hk, h k hk⟩⟩
  · intro k hk
    have hl := dlookup_filter_key base (fun s => decide (s ∈ keys)) k
    rw [if_pos (decide_eq_true hk)] at hl
    exact hl
  · intro k
    rw [hfreem k]
    exact and_comm
  · intro k hk
    have hl := dlookup_filter_key base (fun s => decide (s ∉ keys)) k
    rw [if_pos (decide_eq_true hk)] at hl
    exact hl
  · intro k
    rw [hheldm k, hfreem k]
    by_cases hk : k ∈ keys <;> simp [hk]
  · intro k
    rw [hheldm k, hfreem k]
    tauto

/-- C10 witness: the spec's example
`as_constant({a:1,b:2,c:3}, ["a"])`. -/
theorem as_constant_spec_witness :
    (∀ k ∈ ["a"], k ∈ dkeys [("a", (1 : Int)), ("b", 2), ("c", 3)]) ∧
    "a" ∈ dkeys (as_constant [("a", (1 : Int)), ("b", 2), ("c", 3)]
      ["a"]).2 ∧
    dlookup (as_constant [("a", (1 : Int)), ("b", 2), ("c", 3)] ["a"]).1
      "b" = some 2 := by
  refine ⟨by decide, ?_, ?_⟩
  · exact ((as_constant_spec [("a", (1 : Int)), ("b", 2), ("c", 3)] ["a"]
      (by decide)).1 "a").mpr (by decide)
  · have := (as_constant_spec [("a", (1 : Int)), ("b", 2), ("c", 3)] ["a"]
      (by decide)).2.2.2.1 "b" (by decide)
    rw [this]
    decide

/-- C2: for every pair of dictionaries `base` and `override`,
`merge_dictionaries(base, override)` has exactly `base`'s key set; keys
in both take `override`'s value, keys only in `base` keep their value,
and keys only in `override` do not appear. -/
theorem merge_dictionaries_spec {V : Type} (base override : PDict V) :
    dkeys (merge_dictionaries base override) = dkeys base ∧
    (∀ k, k ∈ dkeys base → k ∈ dkeys override →
      dlookup (merge_dictionaries base override) k = dlookup override k) ∧
    (∀ k, k ∈ dkeys base → k ∉ dkeys override →
      dlookup (merge_dictionaries base override) k = dlookup base k) ∧
    (∀ k, k ∉ dkeys base → k ∉ dkeys (merge_dictionaries base override)) := by
  refine ⟨dkeys_merge base override, ?_, ?_, ?_⟩
  · intro k hb ho
    obtain ⟨w, hw⟩ :=
      Option.isSome_iff_exists.mp ((dlookup_isSome_iff base k).mpr hb)
    obtain ⟨v, hv⟩ :=
      Option.isSome_iff_exists.mp ((dlookup_isSome_iff override k).mpr ho)
    rw [dlookup_merge, hw, hv]
    simp
  · intro k _ ho
    rw [dlookup_merge, dlookup_eq_none_of_not_mem ho]
    cases dlookup base k <;> simp
  · intro k hb
    rw [dkeys_merge]
    exact hb

/-- C2 witness: the spec's own example `merge({a:1,b:2}, {b:3})`. -/
theorem merge_dictionaries_spec_witness :
    ("b" ∈ dkeys [("a", (1 : Int)), ("b", 2)] ∧
      "b" ∈ dkeys [("b", (3 : Int))]) ∧
    dlookup (merge_dictionaries [("a", (1 : Int)), ("b", 2)] [("b", 3)]) "b" =
      some 3 := by
  refine ⟨⟨by decide, by decide⟩, ?_⟩
  have h := (merge_dictionaries_spec [("a", (1 : Int)), ("b", 2)]
    [("b", 3)]).2.1 "b" (by decide) (by decide)
  rw [h]
  decide

/-- C4 counterexample: `merge_dictionaries` is not copy-on-write — after
`merge_dictionaries({"a": 1}, {"a": 2})` the first argument no longer
holds its pre-call pair `("a", 1)`. -/
theorem merge_dictionaries_mutates_counterexample :
    merge_dictionaries_afterBase [("a", (1 : Int))] [("a", (2 : Int))] ≠
      [("a", (1 : Int))] := by
  decide

/-- C4 amended: `concat_dictionaries`, `sort_dictionary` and
`add_parameter` leave their argument dictionaries unchanged (and
`merge_dictionaries` leaves its override unchanged), but
`merge_dictionaries` mutates its base argument in place: after the call
the base holds the merged result (which is also the returned object),
not its pre-call contents. -/
theorem store_helpers_frame_spec {V : Type} (a b d base override : PDict V)
    (kv : String × V) :
    concat_dictionaries_afterFirst a b = a ∧
    concat_dictionaries_afterSecond a b = b ∧
    sort_dictionary_after d = d ∧
    add_parameter_after d kv = d ∧
    merge_dictionaries_afterOverride base override = override ∧
    merge_dictionaries_afterBase base override =
      merge_dictionaries base override :=
  ⟨rfl, rfl, rfl, rfl, rfl, rfl⟩

/-! ## Linear-algebra kernels (`gpjax/utils.py`)

Rationals stand in for the float entries; `jnp.linalg.inv` is embedded
as the adjugate-based inverse `matInv`, which agrees with the true
matrix inverse (and with `Matrix.inv`) over a field. -/

open Matrix

/-- `jnp.linalg.inv`: the inverse of a square matrix, computed through
the adjugate so that it is executable. -/
def matInv {n : ℕ} (A : Matrix (Fin n) (Fin n) ℚ) : Matrix (Fin n) (Fin n) ℚ :=
  A.det⁻¹ • A.adjugate

theorem matInv_eq_inv {n : ℕ} (A : Matrix (Fin n) (Fin n) ℚ) :
    matInv A = A⁻¹ := by
  rw [Matrix.inv_def, matInv, Ring.inverse_eq_inv]

/-- `woodbury_matrix_identity(A, B, C, D, y)` from `gpjax/utils.py`:
`y'(A + B D⁻¹ C)⁻¹ y` via the Woodbury identity, inverting only the
M-by-M matrix `D + C A⁻¹ B`.  `Ainv` is `1 / jnp.diag(A)`, `CAinv` the
column-rescaled `C`, and the final scalar is
`yAinvy - (yAinvB @ E) @ CAinvy`. -/
def woodbury_matrix_identity {N M : ℕ} (A : Matrix (Fin N) (Fin N) ℚ)
    (B : Matrix (Fin N) (Fin M) ℚ) (C : Matrix (Fin M) (Fin N) ℚ)
    (D : Matrix (Fin M) (Fin M) ℚ) (y : Fin N → ℚ) : ℚ :=
  let Ainv : Fin N → ℚ := fun i => 1 / A i i
  let Ainvy : Fin N → ℚ := fun i => Ainv i * y i
  let yAinvy : ℚ := y ⬝ᵥ Ainvy
  let CAinv : Matrix (Fin M) (Fin N) ℚ := Matrix.of fun i j => C i j * Ainv j
  let E : Matrix (Fin M) (Fin M) ℚ := matInv (D + CAinv * B)
  let yAinvB : Fin M → ℚ := Ainvy ᵥ* B
  let CAinvy : Fin M → ℚ := C *ᵥ Ainvy
  yAinvy - (yAinvB ᵥ* E) ⬝ᵥ CAinvy

/-- The claim's comparison point, following the spec's words: the
directly (naively) computed quadratic form `yᵀ (A + B D⁻¹ C)⁻¹ y`,
formed by inverting the full N-by-N matrix. -/
def naive_quadratic_form {N M : ℕ} (A : Matrix (Fin N) (Fin N) ℚ)
    (B : Matrix (Fin N) (Fin M) ℚ) (C : Matrix (Fin M) (Fin N) ℚ)
    (D : Matrix (Fin M) (Fin M) ℚ) (y : Fin N → ℚ) : ℚ :=
  y ⬝ᵥ ((matInv (A + B * matInv D * C)) *ᵥ y)

/-- Evaluation of the embedded code on a diagonal `A`: the scalar it
computes, written in matrix-vector form. -/
theorem woodbury_code_eval {N M : ℕ} (d : Fin N → ℚ)
    (B : Matrix (Fin N) (Fin M) ℚ) (C : Matrix (Fin M) (Fin N) ℚ)
    (D : Matrix (Fin M) (Fin M) ℚ) (y : Fin N → ℚ) :
    woodbury_matrix_identity (Matrix.diagonal d) B C D y =
      y ⬝ᵥ ((Matrix.diagonal fun i => (d i)⁻¹) *ᵥ y) -
        ((((Matrix.diagonal fun i => (d i)⁻¹) *ᵥ y) ᵥ* B) ᵥ*
            matInv (D + C * (Matrix.diagonal fun i => (d i)⁻¹) * B)) ⬝ᵥ
          (C *ᵥ ((Matrix.diagonal fun i => (d i)⁻¹) *ᵥ y)) := by
  have hv : (fun i => 1 / (Matrix.diagonal d) i i * y i) =
      (Matrix.diagonal fun i => (d i)⁻¹) *ᵥ y := by
    funext i
    rw [Matrix.mulVec_diagonal, Matrix.diagonal_apply_eq, one_div]
  have hCA : (Matrix.of fun i j => C i j * (1 / (Matrix.diagonal d) j j)) =
      C * (Matrix.diagonal fun i => (d i)⁻¹) := by
    ext i j
    rw [Matrix.mul_diagonal, Matrix.of_apply, Matrix.diagonal_apply_eq,
      one_div]
  unfold woodbury_matrix_identity
  dsimp only
  rw [hv, hCA]

set_option maxHeartbeats 2000000 in
/-- C8: on every diagonal `A` with nonzero diagonal, invertible `D`, and
invertible inner matrix `D + C A⁻¹ B`, the Woodbury routine returns
exactly the naively computed quadratic form `yᵀ (A + B D⁻¹ C)⁻¹ y`
(while only ever inverting the M-by-M inner matrix). -/
theorem woodbury_matrix_identity_spec {N M : ℕ} (d : Fin N → ℚ)
    (hd : ∀ i, d i ≠ 0) (B : Matrix (Fin N) (Fin M) ℚ)
    (C : Matrix (Fin M) (Fin N) ℚ) (D : Matrix (Fin M) (Fin M) ℚ)
    (y : Fin N → ℚ) (hD : IsUnit D.det)
    (hE : IsUnit (D + C * (Matrix.diagonal fun i => (d i)⁻¹) * B).det) :
    woodbury_matrix_identity (Matrix.diagonal d) B C D y =
      naive_quadratic_form (Matrix.diagonal d) B C D y := by
  have hAAi : Matrix.diagonal d * (Matrix.diagonal fun i => (d i)⁻¹) = 1 := by
    rw [Matrix.diagonal_mul_diagonal,
      show (fun i => d i * (d i)⁻¹) = fun _ => (1 : ℚ) from
        funext fun i => mul_inv_cancel₀ (hd i)]
    exact Matrix.diagonal_one
  have hdetA : IsUnit (Matrix.diagonal d).det :=
    Matrix.isUnit_det_of_right_inverse hAAi
  have hAinv : (Matrix.diagonal d)⁻¹ = Matrix.diagonal fun i => (d i)⁻¹ :=
    Matrix.inv_eq_right_inv hAAi
  have hA : IsUnit (Matrix.diagonal d) :=
    (Matrix.isUnit_iff_isUnit_det _).mpr hdetA
  have hC : IsUnit D⁻¹ :=
    (Matrix.isUnit_iff_isUnit_det _).mpr (D.isUnit_nonsing_inv_det hD)
  have hAC : IsUnit (D⁻¹⁻¹ + C * (Matrix.diagonal d)⁻¹ * B) := by
    rw [Matrix.nonsing_inv_nonsing_inv D hD, hAinv]
    exact (Matrix.isUnit_iff_isUnit_det _).mpr hE
  have hWood : (Matrix.diagonal d + B * D⁻¹ * C)⁻¹ =
      (Matrix.diagonal fun i => (d i)⁻¹) -
        (Matrix.diagonal fun i => (d i)⁻¹) * B *
          (D + C * (Matrix.diagonal fun i => (d i)⁻¹) * B)⁻¹ * C *
          (Matrix.diagonal fun i => (d i)⁻¹) := by
    have h := Matrix.add_mul_mul_inv_eq_sub (Matrix.diagonal d) B D⁻¹ C
      hA hC hAC
    rw [Matrix.nonsing_inv_nonsing_inv D hD, hAinv] at h
    exact h
  have hw : (Matrix.diagonal fun i => (d i)⁻¹) *ᵥ y =
      y ᵥ* (Matrix.diagonal fun i => (d i)⁻¹) := by
    conv_rhs => rw [← Matrix.diagonal_transpose (fun i => (d i)⁻¹)]
    rw [Matrix.vecMul_transpose]
  rw [woodbury_code_eval, naive_quadratic_form, matInv_eq_inv,
    matInv_eq_inv, matInv_eq_inv, hWood, Matrix.sub_mulVec,
    Matrix.dotProduct_sub, Matrix.vecMul_vecMul,
    ← Matrix.dotProduct_mulVec, Matrix.mulVec_mulVec, Matrix.mulVec_mulVec,
    hw, ← Matrix.dotProduct_mulVec, Matrix.mulVec_mulVec]
  congr 1
  simp only [Matrix.mul_assoc]

/-- C8 witness: concrete 1-by-1 matrices `A = [[2]]`, `B = C = D = [[1]]`,
`y = [1]`, where every hypothesis is checked numerically. -/
theorem woodbury_matrix_identity_spec_witness :
    ((∀ i, (![(2 : ℚ)]) i ≠ 0) ∧ IsUnit (!![(1 : ℚ)]).det ∧
      IsUnit ((!![(1 : ℚ)] +
        !![(1 : ℚ)] * (Matrix.diagonal fun i => ((![(2 : ℚ)]) i)⁻¹) *
          !![(1 : ℚ)]).det)) ∧
    woodbury_matrix_identity (Matrix.diagonal ![(2 : ℚ)]) !![1] !![1] !![1]
        ![1] =
      naive_quadratic_form (Matrix.diagonal ![(2 : ℚ)]) !![1] !![1] !![1]
        ![1] := by
  have h1 : ∀ i, (![(2 : ℚ)]) i ≠ 0 := by
    intro i
    fin_cases i
    norm_num
  have h2 : IsUnit (!![(1 : ℚ)]).det := by
    rw [Matrix.det_fin_one]
    norm_num
  have h3 : IsUnit ((!![(1 : ℚ)] +
      !![(1 : ℚ)] * (Matrix.diagonal fun i => ((![(2 : ℚ)]) i)⁻¹) *
        !![(1 : ℚ)]).det) := by
    rw [Matrix.det_fin_one]
    rw [isUnit_iff_ne_zero]
    simp [Matrix.mul_apply, Fin.sum_univ_one, Matrix.diagonal_apply_eq]
    norm_num
  exact ⟨⟨h1, h2, h3⟩,
    woodbury_matrix_identity_spec ![2] h1 !![1] !![1] !![1] ![1] h2 h3⟩

/-! ## Standardisation (`gpjax/utils.py`)

Real numbers stand in for the float entries; `jnp.mean`/`jnp.std` with
`axis=0` are the per-column mean and (population) standard deviation. -/

/-- `jnp.mean(x, axis=0)`: the per-column mean. -/
noncomputable def colMean {n p : ℕ} (x : Matrix (Fin n) (Fin p) ℝ) :
    Fin p → ℝ :=
  fun j => (∑ i, x i j) / n

/-- `jnp.std(x, axis=0)`: the per-column population standard deviation
(square root of the mean squared deviation). -/
noncomputable def colStd {n p : ℕ} (x : Matrix (Fin n) (Fin p) ℝ) :
    Fin p → ℝ :=
  fun j => Real.sqrt ((∑ i, (x i j - colMean x j) ^ 2) / n)

/-- `standardise(x)` (one-argument dispatch form): returns
`((x - mean) / std, mean, std)` per column. -/
noncomputable def standardise {n p : ℕ} (x : Matrix (Fin n) (Fin p) ℝ) :
    Matrix (Fin n) (Fin p) ℝ × (Fin p → ℝ) × (Fin p → ℝ) :=
  (Matrix.of fun i j => (x i j - colMean x j) / colStd x j,
    colMean x, colStd x)

/-- `standardise(x, xmean, xstd)` (three-argument dispatch form):
applies the given statistics. -/
noncomputable def standardise_given {n p : ℕ} (x : Matrix (Fin n) (Fin p) ℝ)
    (xmean xstd : Fin p → ℝ) : Matrix (Fin n) (Fin p) ℝ :=
  Matrix.of fun i j => (x i j - xmean j) / xstd j

/-- `unstandardise(x, xmean, xstd)`: `(x * xstd) + xmean`. -/
noncomputable def unstandardise {n p : ℕ} (x : Matrix (Fin n) (Fin p) ℝ)
    (xmean xstd : Fin p → ℝ) : Matrix (Fin n) (Fin p) ℝ :=
  Matrix.of fun i j => x i j * xstd j + xmean j

/-- C9: for every matrix with nonzero per-column standard deviation,
`unstandardise` inverts `standardise` exactly, the standardised columns
have mean zero, and the round trip also holds for any second matrix
standardised with the same statistics. -/
theorem standardise_roundtrip_spec {n p : ℕ} (x : Matrix (Fin n) (Fin p) ℝ)
    (hs : ∀ j, colStd x j ≠ 0) :
    unstandardise (standardise x).1 (standardise x).2.1
      (standardise x).2.2 = x ∧
    (∀ j, colMean (standardise x).1 j = 0) ∧
    (∀ x2 : Matrix (Fin n) (Fin p) ℝ,
      unstandardise (standardise_given x2 (colMean x) (colStd x))
        (colMean x) (colStd x) = x2) := by
  refine ⟨?_, ?_, ?_⟩
  · ext i j
    show (x i j - colMean x j) / colStd x j * colStd x j + colMean x j = x i j
    rw [div_mul_cancel₀ _ (hs j), sub_add_cancel]
  · intro j
    have hn : (n : ℝ) ≠ 0 := by
      intro h0
      apply hs j
      have hn0 : n = 0 := Nat.cast_eq_zero.mp h0
      subst hn0
      simp [colStd, colMean]
    show (∑ i, (x i j - colMean x j) / colStd x j) / (n : ℝ) = 0
    rw [← Finset.sum_div]
    have hsum : (∑ i, (x i j - colMean x j)) = 0 := by
      rw [Finset.sum_sub_distrib, Finset.sum_const, Finset.card_univ,
        Fintype.card_fin, nsmul_eq_mul, colMean]
      field_simp
    rw [hsum, zero_div, zero_div]
  · intro x2
    ext i j
    show (x2 i j - colMean x j) / colStd x j * colStd x j + colMean x j =
      x2 i j
    rw [div_mul_cancel₀ _ (hs j), sub_add_cancel]

/-- C9 witness: the concrete 2-by-1 matrix with entries 0 and 2, whose
column has mean 1 and standard deviation 1. -/
theorem standardise_roundtrip_spec_witness :
    (∀ j, colStd (!![0; 2] : Matrix (Fin 2) (Fin 1) ℝ) j ≠ 0) ∧
    unstandardise (standardise (!![0; 2] : Matrix (Fin 2) (Fin 1) ℝ)).1
      (standardise (!![0; 2] : Matrix (Fin 2) (Fin 1) ℝ)).2.1
      (standardise (!![0; 2] : Matrix (Fin 2) (Fin 1) ℝ)).2.2 = !![0; 2] := by
  have hmean : colMean (!![0; 2] : Matrix (Fin 2) (Fin 1) ℝ) 0 = 1 := by
    simp [colMean, Fin.sum_univ_two]
  have hstd : colStd (!![0; 2] : Matrix (Fin 2) (Fin 1) ℝ) 0 = 1 := by
    have : ((∑ i, ((!![0; 2] : Matrix (Fin 2) (Fin 1) ℝ) i 0 -
        colMean (!![0; 2] : Matrix (Fin 2) (Fin 1) ℝ) 0) ^ 2) / (2 : ℕ) :
          ℝ) = 1 := by
      rw [Fin.sum_univ_two, hmean]
      norm_num
    show Real.sqrt _ = 1
    rw [this, Real.sqrt_one]
  have hw : ∀ j, colStd (!![0; 2] : Matrix (Fin 2) (Fin 1) ℝ) j ≠ 0 := by
    intro j
    have hj : j = 0 := Subsingleton.elim j 0
    rw [hj, hstd]
    norm_num
  exact ⟨hw, (standardise_roundtrip_spec _ hw).1⟩

end GPJax
